import Mathlib

/-!
# Verification of the mixxx-utils track-reconciliation core

Shallow embedding of `src/python_tools/fix_track_paths_utils/clementine_custom_music_db.py`
(`fix_with_clementine_db`) and `src/python_tools/utils/misc.py` (`confirm_config`).

Conventions of the embedding:
* A pandas DataFrame row becomes a record structure; a DataFrame becomes a
  `List` of records, the original pandas index of a row being its position
  in the list.  The saved-index columns (`saved_index_mixxx`,
  `saved_index_custom`) become the `Nat` component paired with each record
  in the residual lists.
* The `truth` collection is the Mixxx library (`df_mixxx`), the `other`
  collection is the Clementine library (`df_custom`), both taken after the
  caller-side normalisation (`remove_feat`, `fillna`) which is external to
  the core.
* Operator interaction (`input(...)`) is modelled by a list of response
  strings consumed one per prompt; a run that exhausts the responses while
  still prompting is `blocked` (the real program would block forever
  waiting on stdin), and `exit()` points become explicit outcomes.
* Python's `str(i)` / `int(ans)` on decimal numerals are modelled by
  `decRepr` / `decParse` below.
-/

/-- A Mixxx library row restricted to the fields the algorithm reads:
the two merge fields and the two identifying keys that are copied into
the output (`track_idx` from `id`, `location_idx` from `location`). -/
structure TruthRec where
  artist : String
  title : String
  libIdx : Int
  locIdx : Int
deriving DecidableEq, Repr, Inhabited

/-- A Clementine (`songs` table) row restricted to the fields the
algorithm reads: the two merge fields and the computed `file_path`. -/
structure OtherRec where
  artist : String
  title : String
  path : String
deriving DecidableEq, Repr, Inhabited

/-- Modelled from the spec: `MERGE_COLS` lives in
`python_tools/utils/music_db_utils.py`, which is not part of the sources;
the spec fixes the merge fields as `artist` and `title` (the fields the
caller sorts by).  The merge key of a truth row. -/
def truthKey (t : TruthRec) : String × String := (t.artist, t.title)

/-- The merge key of an other row (same `MERGE_COLS` projection). -/
def otherKey (o : OtherRec) : String × String := (o.artist, o.title)

/-- Row lookup by original index, `df.loc[i]` on the truth side. -/
def tget (truth : List TruthRec) (i : Nat) : TruthRec := truth.getD i default

/-- Row lookup by original index, `df.loc[j]` on the other side. -/
def oget (other : List OtherRec) (j : Nat) : OtherRec := other.getD j default

/-! ## Decimal numerals: Python's `str` and `int` on the candidate indices -/

/-- The decimal digit character for `d` (`d < 10`; larger arguments are
clamped to `'9'`, a case the program never produces). -/
def decDigitChar (d : Nat) : Char :=
  match d with
  | 0 => '0' | 1 => '1' | 2 => '2' | 3 => '3' | 4 => '4'
  | 5 => '5' | 6 => '6' | 7 => '7' | 8 => '8' | _ => '9'

/-- Digit list of `n` in base 10, most significant first, prepended to
`acc` (fuel-driven so it stays structural; any `fuel` with `n < 10 ^ fuel`
computes the full numeral). -/
def decReprCore (fuel : Nat) (n : Nat) (acc : List Char) : List Char :=
  match fuel with
  | 0 => acc
  | fuel + 1 =>
    if n < 10 then decDigitChar n :: acc
    else decReprCore fuel (n / 10) (decDigitChar (n % 10) :: acc)

/-- Python's `str(n)` for a natural number. -/
def decRepr (n : Nat) : String := ⟨decReprCore (n + 1) n []⟩

/-- Python's `int(s)` for a string of decimal digits. -/
def decParse (s : String) : Nat :=
  s.toList.foldl (fun a c => a * 10 + (c.toNat - 48)) 0

/-- `10 ^ (number of decimal digits of n)`, following the recursion of
`decReprCore`. -/
def tenPow (n : Nat) : Nat :=
  if _ : n < 10 then 10 else 10 * tenPow (n / 10)
termination_by n
decreasing_by exact Nat.div_lt_self (by omega) (by omega)

theorem decDigitChar_toNat (d : Nat) (h : d < 10) : (decDigitChar d).toNat = 48 + d := by
  interval_cases d <;> rfl

theorem decReprCore_foldl (fuel : Nat) : ∀ (n : Nat) (acc : List Char) (a : Nat),
    n < 10 ^ fuel → 1 ≤ fuel →
    (decReprCore fuel n acc).foldl (fun a c => a * 10 + (c.toNat - 48)) a =
      acc.foldl (fun a c => a * 10 + (c.toNat - 48)) (a * tenPow n + n) := by
  induction fuel with
  | zero => intro n acc a h h1; omega
  | succ fuel ih =>
    intro n acc a h h1
    rw [decReprCore, tenPow]
    by_cases h10 : n < 10
    · simp only [if_pos h10, dif_pos h10, List.foldl_cons]
      rw [decDigitChar_toNat n h10]
      congr 1
      omega
    · simp only [if_neg h10, dif_neg h10]
      have hdiv : n / 10 < 10 ^ fuel := by
        rw [Nat.div_lt_iff_lt_mul (by omega)]
        calc n < 10 ^ (fuel + 1) := h
        _ = 10 ^ fuel * 10 := by ring
      have hfuel : 1 ≤ fuel := by
        rcases Nat.eq_zero_or_pos fuel with hf | hf
        · subst hf
          simp only [pow_zero, Nat.lt_one_iff] at hdiv
          omega
        · exact hf
      rw [ih (n / 10) _ _ hdiv hfuel]
      simp only [List.foldl_cons]
      rw [decDigitChar_toNat (n % 10) (Nat.mod_lt _ (by omega))]
      congr 1
      have := Nat.div_add_mod n 10
      ring_nf
      omega

theorem decParse_decRepr (n : Nat) : decParse (decRepr n) = n := by
  show (decReprCore (n + 1) n []).foldl (fun a c => a * 10 + (c.toNat - 48)) 0 = n
  rw [decReprCore_foldl (n + 1) n [] 0 (Nat.lt_of_lt_of_le (Nat.lt_pow_self (by omega) n)
    (Nat.pow_le_pow_right (by omega) (by omega))) (by omega)]
  simp

theorem decReprCore_eq_nil (fuel n : Nat) (acc : List Char) :
    decReprCore fuel n acc = [] → acc = [] := by
  induction fuel generalizing n acc with
  | zero => exact fun h => h
  | succ fuel ih =>
    intro h
    rw [decReprCore] at h
    by_cases h10 : n < 10
    · simp [if_pos h10] at h
    · rw [if_neg h10] at h
      cases ih (n / 10) _ h

theorem decRepr_ne_empty (n : Nat) : decRepr n ≠ "" := by
  intro h
  have : decReprCore (n + 1) n [] = [] := congrArg String.data h
  rw [decReprCore] at this
  by_cases h10 : n < 10
  · simp [if_pos h10] at this
  · rw [if_neg h10] at this
    cases decReprCore_eq_nil n (n / 10) _ this

/-! ## Exact-match stage (the `pd.merge` inner join and the residuals) -/

/-- The inner join on the merge columns: all `(truth index, other index)`
pairs with equal merge keys, enumerated in the row order of the join
(`left` frame is the Clementine table, so other-major). -/
def matchedPairs (truth : List TruthRec) (other : List OtherRec) : List (Nat × Nat) :=
  (List.range other.length).flatMap fun j =>
    (List.range truth.length).filterMap fun i =>
      if truthKey (tget truth i) = otherKey (oget other j) then some (i, j) else none

/-- `df_mixxx.drop(index=pd.Index(df_custom_pm[IDX_MIXXX]))`: the truth rows
whose original index appears in no matched pair, paired with that index. -/
def truthResidual (truth : List TruthRec) (other : List OtherRec) : List (Nat × TruthRec) :=
  ((List.range truth.length).map fun i => (i, tget truth i)).filter
    fun e => (matchedPairs truth other).all fun p => p.1 != e.1

/-- `df_custom.drop(index=pd.Index(df_custom_pm[IDX_CUSTOM]))`: the other rows
whose original index appears in no matched pair, paired with that index. -/
def otherResidual (truth : List TruthRec) (other : List OtherRec) : List (Nat × OtherRec) :=
  ((List.range other.length).map fun j => (j, oget other j)).filter
    fun e => (matchedPairs truth other).all fun p => p.2 != e.1

theorem mem_matchedPairs (truth : List TruthRec) (other : List OtherRec) (i j : Nat) :
    (i, j) ∈ matchedPairs truth other ↔
      i < truth.length ∧ j < other.length ∧
        truthKey (tget truth i) = otherKey (oget other j) := by
  simp only [matchedPairs, List.mem_flatMap, List.mem_filterMap, List.mem_range]
  constructor
  · rintro ⟨j', hj', i', hi', hif⟩
    by_cases h : truthKey (tget truth i') = otherKey (oget other j')
    · simp only [if_pos h, Option.some.injEq, Prod.mk.injEq] at hif
      obtain ⟨rfl, rfl⟩ := hif
      exact ⟨hi', hj', h⟩
    · simp [if_neg h] at hif
  · rintro ⟨hi, hj, hk⟩
    exact ⟨j, hj, ⟨i, hi, by simp [if_pos hk]⟩⟩

theorem mem_truthResidual (truth : List TruthRec) (other : List OtherRec) (e : Nat × TruthRec) :
    e ∈ truthResidual truth other ↔
      e.1 < truth.length ∧ e.2 = tget truth e.1 ∧
        ∀ j, (e.1, j) ∉ matchedPairs truth other := by
  simp only [truthResidual, List.mem_filter, List.mem_map, List.mem_range, List.all_eq_true,
    bne_iff_ne, ne_eq]
  constructor
  · rintro ⟨⟨i, hi, rfl⟩, hall⟩
    refine ⟨hi, rfl, fun j hj => hall (i, j) hj rfl⟩
  · rintro ⟨hi, he, hall⟩
    exact ⟨⟨e.1, hi, by cases e; simp_all⟩,
      fun p hp h1 => hall p.2 (by cases p; simp_all)⟩

theorem mem_otherResidual (truth : List TruthRec) (other : List OtherRec) (e : Nat × OtherRec) :
    e ∈ otherResidual truth other ↔
      e.1 < other.length ∧ e.2 = oget other e.1 ∧
        ∀ i, (i, e.1) ∉ matchedPairs truth other := by
  simp only [otherResidual, List.mem_filter, List.mem_map, List.mem_range, List.all_eq_true,
    bne_iff_ne, ne_eq]
  constructor
  · rintro ⟨⟨j, hj, rfl⟩, hall⟩
    refine ⟨hj, rfl, fun i hi => hall (i, j) hi rfl⟩
  · rintro ⟨hj, he, hall⟩
    exact ⟨⟨e.1, hj, by cases e; simp_all⟩,
      fun p hp h1 => hall p.1 (by cases p; simp_all)⟩

/-! ## Row ordering: `sort_values(by=["artist", "title"])`

Python compares strings lexicographically by character; the model compares
the underlying character lists (with Mathlib's lexicographic linear order
on `List Char`). -/

/-- Lexicographic comparison of two (artist, title) keys. -/
def keyLe (k l : String × String) : Prop :=
  k.1.toList < l.1.toList ∨ (k.1.toList = l.1.toList ∧ k.2.toList ≤ l.2.toList)

instance keyLe.decRel : DecidableRel keyLe := fun _ _ =>
  inferInstanceAs (Decidable (_ ∨ _))

instance keyLe.isTrans : IsTrans (String × String) keyLe where
  trans a b c hab hbc := by
    rcases hab with h1 | ⟨h1, h1t⟩ <;> rcases hbc with h2 | ⟨h2, h2t⟩
    · exact Or.inl (lt_trans h1 h2)
    · exact Or.inl (h2 ▸ h1)
    · exact Or.inl (h1 ▸ h2)
    · exact Or.inr ⟨h1.trans h2, le_trans h1t h2t⟩

instance keyLe.isTotal : IsTotal (String × String) keyLe where
  total a b := by
    rcases lt_trichotomy a.1.toList b.1.toList with h | h | h
    · exact Or.inl (Or.inl h)
    · rcases le_total a.2.toList b.2.toList with ht | ht
      · exact Or.inl (Or.inr ⟨h, ht⟩)
      · exact Or.inr (Or.inr ⟨h.symm, ht⟩)
    · exact Or.inr (Or.inl h)

/-- The row order used by `df_mixxx_nm.sort_values(by=["artist", "title"])`. -/
def rowKeyLe (a b : Nat × TruthRec) : Prop := keyLe (truthKey a.2) (truthKey b.2)

instance rowKeyLe.decRel : DecidableRel rowKeyLe := fun _ _ =>
  inferInstanceAs (Decidable (keyLe _ _))

instance rowKeyLe.isTrans : IsTrans (Nat × TruthRec) rowKeyLe where
  trans _ _ _ hab hbc := keyLe.isTrans.trans _ _ _ hab hbc

instance rowKeyLe.isTotal : IsTotal (Nat × TruthRec) rowKeyLe where
  total _ _ := keyLe.isTotal.total _ _

/-- The truth residual in the order the close-match loop visits it. -/
def sortedTruthResidual (truth : List TruthRec) (other : List OtherRec) :
    List (Nat × TruthRec) :=
  (truthResidual truth other).insertionSort rowKeyLe

/-! ## Fuzzy candidate proposal

`get_closest_matches_indices` lives in `python_tools/utils/track_utils.py`,
which is not among the sources; it is modelled from the spec (§4.2). -/

/-- Order on (distance, original pool index) pairs: ascending distance,
ties broken by ascending pool index. -/
def distIdxLe (a b : Nat × Nat) : Prop := a.1 < b.1 ∨ (a.1 = b.1 ∧ a.2 ≤ b.2)

instance distIdxLe.decRel : DecidableRel distIdxLe := fun _ _ =>
  inferInstanceAs (Decidable (_ ∨ _))

instance distIdxLe.isTrans : IsTrans (Nat × Nat) distIdxLe where
  trans a b c hab hbc := by
    rcases hab with h1 | ⟨h1, h1t⟩ <;> rcases hbc with h2 | ⟨h2, h2t⟩ <;>
      [exact Or.inl (lt_trans h1 h2); exact Or.inl (h2 ▸ h1);
        exact Or.inl (h1 ▸ h2); exact Or.inr ⟨h1.trans h2, le_trans h1t h2t⟩]

instance distIdxLe.isTotal : IsTotal (Nat × Nat) distIdxLe where
  total a b := by
    rcases lt_trichotomy a.1 b.1 with h | h | h
    · exact Or.inl (Or.inl h)
    · rcases le_total a.2 b.2 with ht | ht
      · exact Or.inl (Or.inr ⟨h, ht⟩)
      · exact Or.inr (Or.inr ⟨h.symm, ht⟩)
    · exact Or.inr (Or.inl h)

/-- Modelled from the spec: missing `track_utils.get_closest_matches_indices`.
Each pool entry strictly below the distance threshold, scored with the
caller-supplied string-distance `dist` (the spec leaves the metric to the
implementer), as a (distance, original pool index) pair. -/
def scoredCandidates (dist : TruthRec → OtherRec → Nat) (row : TruthRec)
    (pool : List (Nat × OtherRec)) (threshold : Nat) : List (Nat × Nat) :=
  pool.filterMap fun e =>
    if dist row e.2 < threshold then some (dist row e.2, e.1) else none

/-- Modelled from the spec: the `max_candidates` lowest-distance scored
entries, sorted ascending by distance, ties broken by ascending pool index. -/
def rankedCandidates (dist : TruthRec → OtherRec → Nat) (row : TruthRec)
    (pool : List (Nat × OtherRec)) (threshold maxc : Nat) : List (Nat × Nat) :=
  ((scoredCandidates dist row pool threshold).insertionSort distIdxLe).take maxc

/-- Modelled from the spec: missing `track_utils.get_closest_matches_indices`,
the ranked candidates projected to their original pool indices. -/
def get_closest_matches_indices (dist : TruthRec → OtherRec → Nat) (row : TruthRec)
    (pool : List (Nat × OtherRec)) (threshold maxc : Nat) : List Nat :=
  (rankedCandidates dist row pool threshold maxc).map (·.2)

/-! ## Interactive resolution -/

/-- The `ans_check` list: the empty string followed by `str(i)` for each
candidate list position `i`. -/
def validAnswers (n : Nat) : List String := "" :: (List.range n).map decRepr

/-- The `while True: ans = input(...)` loop: consume responses until one
is in `valid`; `none` when the response list is exhausted (the real
program would still be blocked on `input`). -/
def promptLoop (valid : List String) : List String → Option (String × List String)
  | [] => none
  | a :: rest => if a ∈ valid then some (a, rest) else promptLoop valid rest

/-- One entry of `list_idx_cm` (and a row of `df_custom_pm` after the final
projection): library index, location index, file path. -/
structure Row3 where
  libIdx : Int
  locIdx : Int
  path : String
deriving DecidableEq, Repr

/-- A row of the final exported table. -/
structure ResultRow where
  libIdx : Int
  locIdx : Int
  path : String
  filename : String
  directory : String
deriving DecidableEq, Repr

/-- Disambiguation of one truth record with candidate list `close`:
prompt until a valid answer; empty answer skips, an index answer selects
`close[int(ans)]` and records library index, location index and the
selected record's path. -/
def resolveRecord (other : List OtherRec) (t : TruthRec) (close : List Nat)
    (responses : List String) : Option (Option Row3 × List String) :=
  match promptLoop (validAnswers close.length) responses with
  | none => none
  | some (ans, rest) =>
    if ans = "" then some (none, rest)
    else some (some ⟨t.libIdx, t.locIdx, (oget other (close.getD (decParse ans) 0)).path⟩, rest)

/-- The `for idx_mixxx, row in df_mixxx_nm.sort_values(...).iterrows()` loop:
visit each residual truth row in order, propose candidates from the fixed
pool `pool` (the other residual, never shrunk by confirmations), and
collect the confirmed rows (`list_idx_cm`). `none` when the operator
responses run out mid-prompt. -/
def closeMatchLoop (dist : TruthRec → OtherRec → Nat) (other : List OtherRec)
    (pool : List (Nat × OtherRec)) (threshold maxc : Nat) :
    List (Nat × TruthRec) → List String → Option (List Row3)
  | [], _ => some []
  | e :: rest, responses =>
    let close := get_closest_matches_indices dist e.2 pool threshold maxc
    if close.isEmpty then closeMatchLoop dist other pool threshold maxc rest responses
    else
      match resolveRecord other e.2 close responses with
      | none => none
      | some (none, rest2) => closeMatchLoop dist other pool threshold maxc rest rest2
      | some (some r, rest2) =>
        (closeMatchLoop dist other pool threshold maxc rest rest2).map (r :: ·)

/-! ## Final projection and output

`Path(x).name` and `Path(x).parent.as_posix()` come from Python's `pathlib`
(external to the repository); they are modelled from the spec for POSIX
path strings: split on `/`, drop empty and `.` components. -/

/-- Split a character list on a separator character. -/
def splitChar (c : Char) : List Char → List (List Char)
  | [] => [[]]
  | x :: xs =>
    match splitChar c xs with
    | [] => [[]]
    | g :: gs => if x = c then [] :: g :: gs else (x :: g) :: gs

/-- The non-empty, non-`.` components of a POSIX path string. -/
def pathParts (p : String) : List (List Char) :=
  (splitChar '/' p.toList).filter fun s => s ≠ [] ∧ s ≠ ['.']

/-- Modelled from the spec: Python's `Path(p).name`, the final path
component (empty for the root path). -/
def pathName (p : String) : String := ⟨(pathParts p).getLast?.getD []⟩

/-- Join path components with `/`. -/
def joinSlash : List (List Char) → List Char
  | [] => []
  | [g] => g
  | g :: gs => g ++ '/' :: joinSlash gs

/-- Modelled from the spec: Python's `Path(p).parent.as_posix()`, the
parent-directory path (`/`-rooted for absolute paths, `.` for a bare
relative name). -/
def pathParent (p : String) : String :=
  let parts := (pathParts p).dropLast
  if p.toList.head? = some '/' then ⟨'/' :: joinSlash parts⟩
  else if parts = [] then "." else ⟨joinSlash parts⟩

/-- The two derived presentation columns added to a projected row. -/
def finalizeRow (r : Row3) : ResultRow :=
  ⟨r.libIdx, r.locIdx, r.path, pathName r.path, pathParent r.path⟩

/-- The exact-match rows (`df_custom_pm`) projected to the three exported
columns: truth-side library and location index, other-side path. -/
def pmRows (truth : List TruthRec) (other : List OtherRec) : List Row3 :=
  (matchedPairs truth other).map fun p =>
    ⟨(tget truth p.1).libIdx, (tget truth p.1).locIdx, (oget other p.2).path⟩

/-- Outcome of a run of `fix_with_clementine_db`: the early `exit()` on an
empty missing-track list, the `exit()` on a refused refresh confirmation,
an operator that stops answering (the program blocks on `input`), or a
completed run with the exported rows. -/
inductive RunResult where
  | nothingToDo
  | aborted
  | blocked
  | completed (rows : List ResultRow)
deriving DecidableEq, Repr

/-- The whole `fix_with_clementine_db` run, starting from the loaded and
normalised collections (`df_mixxx` = truth, `df_custom` = other after the
existence filter and `remove_feat`); DB I/O is external. -/
def fix_with_clementine_db (dist : TruthRec → OtherRec → Nat)
    (truth : List TruthRec) (other : List OtherRec)
    (refreshAns : String) (responses : List String) (threshold maxc : Nat) : RunResult :=
  if truth.isEmpty then .nothingToDo
  else if refreshAns ≠ "y" then .aborted
  else
    let pm := pmRows truth other
    let tres := sortedTruthResidual truth other
    if tres.isEmpty then .completed (pm.map finalizeRow)
    else
      match closeMatchLoop dist other (otherResidual truth other) threshold maxc
        tres responses with
      | none => .blocked
      | some cm => .completed ((pm ++ cm).map finalizeRow)

/-! ## `confirm_config` from `python_tools/utils/misc.py` -/

/-- Outcome of `confirm_config`: fall through, or `exit(1)`. -/
inductive ConfirmOutcome where
  | proceed
  | exitCode (c : Nat)
deriving DecidableEq, Repr

/-- The filter of `confirm_config`: keep a `(name, str(value))` member when
the name does not start with `__` and the value's string form contains no
`.`. -/
def eligibleParam (p : String × String) : Bool :=
  !decide (p.1.toList.take 2 = ['_', '_']) && !p.2.toList.contains '.'

/-- The order `sorted(...)` uses on `(name, str(value))` tuples:
lexicographic on the pair. -/
def memberLe (p q : String × String) : Prop :=
  p.1.toList < q.1.toList ∨ (p.1.toList = q.1.toList ∧ p.2.toList ≤ q.2.toList)

instance memberLe.decRel : DecidableRel memberLe := fun _ _ =>
  inferInstanceAs (Decidable (_ ∨ _))

instance memberLe.isTrans : IsTrans (String × String) memberLe where
  trans a b c hab hbc := keyLe.isTrans.trans a b c hab hbc

instance memberLe.isTotal : IsTotal (String × String) memberLe where
  total a b := keyLe.isTotal.total a b

/-- `params`: the sorted eligible members of the configuration module,
each member given as its name and the string form of its value. -/
def configParams (members : List (String × String)) : List (String × String) :=
  (members.filter eligibleParam).insertionSort memberLe

/-- `confirm_config`, over the member list of the configuration module and
the operator's answer; the `Bool` records whether the operator was
prompted at all. -/
def confirm_config (members : List (String × String)) (answer : String) :
    Bool × ConfirmOutcome :=
  if configParams members ≠ [] then
    (true, if answer ≠ "y" then .exitCode 1 else .proceed)
  else (false, .proceed)

/-! ## A concrete string distance for concrete runs

The spec leaves the fuzzy metric to the implementer; `sampleDist` is one
concrete deterministic choice used to instantiate the theorems below. -/

/-- Position-wise character mismatch count plus length difference. -/
def listDiff : List Char → List Char → Nat
  | [], r => r.length
  | l, [] => l.length
  | a :: as, b :: bs => (if a = b then 0 else 1) + listDiff as bs

/-- A concrete combined distance over the merge fields. -/
def sampleDist (t : TruthRec) (o : OtherRec) : Nat :=
  listDiff (t.artist.toList ++ t.title.toList) (o.artist.toList ++ o.title.toList)

/-! ## Helper lemmas -/

theorem truthResidual_map_fst (truth : List TruthRec) (other : List OtherRec) :
    (truthResidual truth other).map Prod.fst =
      (List.range truth.length).filter
        (fun i => (matchedPairs truth other).all fun p => p.1 != i) := by
  unfold truthResidual
  rw [List.filter_map, List.map_map]
  simp [Function.comp_def]

theorem otherResidual_map_fst (truth : List TruthRec) (other : List OtherRec) :
    (otherResidual truth other).map Prod.fst =
      (List.range other.length).filter
        (fun j => (matchedPairs truth other).all fun p => p.2 != j) := by
  unfold otherResidual
  rw [List.filter_map, List.map_map]
  simp [Function.comp_def]

theorem mem_truthResidual_map_fst (truth : List TruthRec) (other : List OtherRec) (i : Nat) :
    i ∈ (truthResidual truth other).map Prod.fst ↔
      i < truth.length ∧ ∀ j, (i, j) ∉ matchedPairs truth other := by
  rw [truthResidual_map_fst, List.mem_filter, List.mem_range, List.all_eq_true]
  constructor
  · rintro ⟨hi, hall⟩
    refine ⟨hi, fun j hj => ?_⟩
    have := hall (i, j) hj
    simp at this
  · rintro ⟨hi, hall⟩
    refine ⟨hi, fun p hp => ?_⟩
    simp only [bne_iff_ne, ne_eq]
    intro h1
    obtain ⟨p1, p2⟩ := p
    simp only at h1
    subst h1
    exact hall p2 hp

theorem mem_otherResidual_map_fst (truth : List TruthRec) (other : List OtherRec) (j : Nat) :
    j ∈ (otherResidual truth other).map Prod.fst ↔
      j < other.length ∧ ∀ i, (i, j) ∉ matchedPairs truth other := by
  rw [otherResidual_map_fst, List.mem_filter, List.mem_range, List.all_eq_true]
  constructor
  · rintro ⟨hj, hall⟩
    refine ⟨hj, fun i hi => ?_⟩
    have := hall (i, j) hi
    simp at this
  · rintro ⟨hj, hall⟩
    refine ⟨hj, fun p hp => ?_⟩
    simp only [bne_iff_ne, ne_eq]
    intro h1
    obtain ⟨p1, p2⟩ := p
    simp only at h1
    subst h1
    exact hall p1 hp

theorem mem_matchedPairs_map_fst (truth : List TruthRec) (other : List OtherRec) (i : Nat) :
    i ∈ (matchedPairs truth other).map Prod.fst ↔
      ∃ j, (i, j) ∈ matchedPairs truth other := by
  rw [List.mem_map]
  constructor
  · rintro ⟨p, hp, rfl⟩
    exact ⟨p.2, by obtain ⟨p1, p2⟩ := p; exact hp⟩
  · rintro ⟨j, hj⟩
    exact ⟨(i, j), hj, rfl⟩

theorem mem_matchedPairs_map_snd (truth : List TruthRec) (other : List OtherRec) (j : Nat) :
    j ∈ (matchedPairs truth other).map Prod.snd ↔
      ∃ i, (i, j) ∈ matchedPairs truth other := by
  rw [List.mem_map]
  constructor
  · rintro ⟨p, hp, rfl⟩
    exact ⟨p.1, by obtain ⟨p1, p2⟩ := p; exact hp⟩
  · rintro ⟨i, hi⟩
    exact ⟨(i, j), hi, rfl⟩

theorem rankedCandidates_forall (dist : TruthRec → OtherRec → Nat) (row : TruthRec)
    (pool : List (Nat × OtherRec)) (threshold maxc : Nat) :
    ∀ c ∈ rankedCandidates dist row pool threshold maxc,
      c.1 < threshold ∧ ∃ o, (c.2, o) ∈ pool ∧ dist row o = c.1 := by
  intro c hc
  have hc2 : c ∈ (scoredCandidates dist row pool threshold).insertionSort distIdxLe :=
    List.mem_of_mem_take hc
  have hc3 : c ∈ scoredCandidates dist row pool threshold :=
    (List.perm_insertionSort distIdxLe _).mem_iff.1 hc2
  rw [scoredCandidates, List.mem_filterMap] at hc3
  obtain ⟨⟨e1, e2⟩, he, hif⟩ := hc3
  by_cases hd : dist row e2 < threshold
  · rw [if_pos hd] at hif
    have hc4 : (dist row e2, e1) = c := Option.some.inj hif
    subst hc4
    exact ⟨hd, e2, he, rfl⟩
  · rw [if_neg hd] at hif
    cases hif

/-! ## Claim theorems: exact-match stage -/

/-- C2: every (truth, other) pair produced by the exact-match stage has
identical values on all merge fields, and every row left in the truth or
other residual has no row on the opposite side with equal values on all
merge fields. -/
theorem exact_match_completeness (truth : List TruthRec) (other : List OtherRec) :
    (∀ p ∈ matchedPairs truth other,
        truthKey (tget truth p.1) = otherKey (oget other p.2)) ∧
    (∀ e ∈ truthResidual truth other, ∀ j, j < other.length →
        truthKey e.2 ≠ otherKey (oget other j)) ∧
    (∀ e ∈ otherResidual truth other, ∀ i, i < truth.length →
        truthKey (tget truth i) ≠ otherKey e.2) := by
  refine ⟨?_, ?_, ?_⟩
  · rintro ⟨i, j⟩ hp
    exact ((mem_matchedPairs truth other i j).1 hp).2.2
  · intro e he j hj hk
    obtain ⟨hi, he2, hnot⟩ := (mem_truthResidual truth other e).1 he
    exact hnot j ((mem_matchedPairs truth other e.1 j).2 ⟨hi, hj, by rw [← he2]; exact hk⟩)
  · intro e he i hi hk
    obtain ⟨hj, he2, hnot⟩ := (mem_otherResidual truth other e).1 he
    exact hnot i ((mem_matchedPairs truth other i e.1).2 ⟨hi, hj, by rw [← he2]; exact hk⟩)

/-- Witness for C2 at a concrete input: one exact pair, one truth-residual
row and one other-residual row. -/
theorem exact_match_completeness_witness :
    truthKey (tget [⟨"a", "t", 1, 2⟩, ⟨"b", "u", 3, 4⟩] 0) =
        otherKey (oget [⟨"a", "t", "/p.mp3"⟩, ⟨"c", "v", "/q.mp3"⟩] 0) ∧
    truthKey (⟨"b", "u", 3, 4⟩ : TruthRec) ≠
        otherKey (oget [⟨"a", "t", "/p.mp3"⟩, ⟨"c", "v", "/q.mp3"⟩] 1) ∧
    truthKey (tget [⟨"a", "t", 1, 2⟩, ⟨"b", "u", 3, 4⟩] 1) ≠
        otherKey (⟨"c", "v", "/q.mp3"⟩ : OtherRec) :=
  ⟨(exact_match_completeness [⟨"a", "t", 1, 2⟩, ⟨"b", "u", 3, 4⟩]
      [⟨"a", "t", "/p.mp3"⟩, ⟨"c", "v", "/q.mp3"⟩]).1 (0, 0) (by decide),
    (exact_match_completeness [⟨"a", "t", 1, 2⟩, ⟨"b", "u", 3, 4⟩]
      [⟨"a", "t", "/p.mp3"⟩, ⟨"c", "v", "/q.mp3"⟩]).2.1 (1, ⟨"b", "u", 3, 4⟩)
      (by decide) 1 (by decide),
    (exact_match_completeness [⟨"a", "t", 1, 2⟩, ⟨"b", "u", 3, 4⟩]
      [⟨"a", "t", "/p.mp3"⟩, ⟨"c", "v", "/q.mp3"⟩]).2.2 (1, ⟨"c", "v", "/q.mp3"⟩)
      (by decide) 1 (by decide)⟩

/-- C3: for each side, the residual indices and the indices appearing in
the matched pairs partition the original index set: every original index
is covered, none is in both, and the residual lists no index twice. -/
theorem residual_partition (truth : List TruthRec) (other : List OtherRec) :
    (∀ i, i < truth.length ↔
        (i ∈ (truthResidual truth other).map Prod.fst ∨
          i ∈ (matchedPairs truth other).map Prod.fst)) ∧
    (∀ i, ¬(i ∈ (truthResidual truth other).map Prod.fst ∧
        i ∈ (matchedPairs truth other).map Prod.fst)) ∧
    ((truthResidual truth other).map Prod.fst).Nodup ∧
    (∀ j, j < other.length ↔
        (j ∈ (otherResidual truth other).map Prod.fst ∨
          j ∈ (matchedPairs truth other).map Prod.snd)) ∧
    (∀ j, ¬(j ∈ (otherResidual truth other).map Prod.fst ∧
        j ∈ (matchedPairs truth other).map Prod.snd)) ∧
    ((otherResidual truth other).map Prod.fst).Nodup := by
  refine ⟨?_, ?_, ?_, ?_, ?_, ?_⟩
  · intro i
    rw [mem_truthResidual_map_fst, mem_matchedPairs_map_fst]
    constructor
    · intro hi
      by_cases hm : ∃ j, (i, j) ∈ matchedPairs truth other
      · exact Or.inr hm
      · exact Or.inl ⟨hi, fun j hj => hm ⟨j, hj⟩⟩
    · rintro (⟨hi, _⟩ | ⟨j, hj⟩)
      · exact hi
      · exact ((mem_matchedPairs truth other i j).1 hj).1
  · intro i
    rw [mem_truthResidual_map_fst, mem_matchedPairs_map_fst]
    rintro ⟨⟨_, hnot⟩, j, hj⟩
    exact hnot j hj
  · rw [truthResidual_map_fst]
    exact (List.nodup_range _).filter _
  · intro j
    rw [mem_otherResidual_map_fst, mem_matchedPairs_map_snd]
    constructor
    · intro hj
      by_cases hm : ∃ i, (i, j) ∈ matchedPairs truth other
      · exact Or.inr hm
      · exact Or.inl ⟨hj, fun i hi => hm ⟨i, hi⟩⟩
    · rintro (⟨hj, _⟩ | ⟨i, hi⟩)
      · exact hj
      · exact ((mem_matchedPairs truth other i j).1 hi).2.1
  · intro j
    rw [mem_otherResidual_map_fst, mem_matchedPairs_map_snd]
    rintro ⟨⟨_, hnot⟩, i, hi⟩
    exact hnot i hi
  · rw [otherResidual_map_fst]
    exact (List.nodup_range _).filter _

/-- Witness for C3 at a concrete input, discharging the `i < length`
direction of the covering at index 1 (a residual index). -/
theorem residual_partition_witness :
    1 ∈ (truthResidual [⟨"a", "t", 1, 2⟩, ⟨"b", "u", 3, 4⟩]
          [⟨"a", "t", "/p.mp3"⟩]).map Prod.fst ∨
    1 ∈ (matchedPairs [⟨"a", "t", 1, 2⟩, ⟨"b", "u", 3, 4⟩]
          [⟨"a", "t", "/p.mp3"⟩]).map Prod.fst :=
  ((residual_partition [⟨"a", "t", 1, 2⟩, ⟨"b", "u", 3, 4⟩]
      [⟨"a", "t", "/p.mp3"⟩]).1 1).1 (by decide)

/-! ## Claim theorems: fuzzy stage ordering and candidate proposal -/

/-- C6: the close-match loop evaluates exactly the truth-residual records
(a permutation of them, so no other records and no duplicates), in
ascending lexicographic order of the (artist, title) merge fields; and
the run feeds the loop precisely this sorted sequence. -/
theorem fuzzy_iteration_order (truth : List TruthRec) (other : List OtherRec) :
    List.Sorted rowKeyLe (sortedTruthResidual truth other) ∧
    (sortedTruthResidual truth other).Perm (truthResidual truth other) ∧
    (∀ (dist : TruthRec → OtherRec → Nat) (responses : List String)
        (threshold maxc : Nat) (cm : List Row3),
      truth ≠ [] →
      sortedTruthResidual truth other ≠ [] →
      closeMatchLoop dist other (otherResidual truth other) threshold maxc
        (sortedTruthResidual truth other) responses = some cm →
      fix_with_clementine_db dist truth other "y" responses threshold maxc =
        .completed ((pmRows truth other ++ cm).map finalizeRow)) := by
  refine ⟨List.sorted_insertionSort rowKeyLe _, List.perm_insertionSort rowKeyLe _, ?_⟩
  intro dist responses threshold maxc cm htruth hres hloop
  rw [fix_with_clementine_db]
  rw [if_neg (by simp [htruth]), if_neg (by simp)]
  simp only [List.isEmpty_iff, hres, if_neg, if_false]
  rw [hloop]

/-- Witness for C6 at a concrete input with a non-empty residual whose
single record has no candidate below the threshold. -/
theorem fuzzy_iteration_order_witness :
    fix_with_clementine_db sampleDist [⟨"b", "t", 1, 2⟩] [⟨"c", "u", "/p.mp3"⟩]
        "y" [] 0 5 =
      .completed ((pmRows [⟨"b", "t", 1, 2⟩] [⟨"c", "u", "/p.mp3"⟩] ++ []).map finalizeRow) :=
  (fuzzy_iteration_order [⟨"b", "t", 1, 2⟩] [⟨"c", "u", "/p.mp3"⟩]).2.2
    sampleDist [] 0 5 [] (by decide) (by decide) (by decide)

/-- C7: the candidate-proposal operation returns at most `maxc` indices;
each ranked entry scores strictly below the threshold and comes from the
pool with its recorded distance; and the ranked list is sorted ascending
by distance with ties broken by ascending original pool index. -/
theorem candidate_bound_and_order (dist : TruthRec → OtherRec → Nat) (row : TruthRec)
    (pool : List (Nat × OtherRec)) (threshold maxc : Nat) :
    get_closest_matches_indices dist row pool threshold maxc =
        (rankedCandidates dist row pool threshold maxc).map Prod.snd ∧
    (get_closest_matches_indices dist row pool threshold maxc).length ≤ maxc ∧
    (∀ c ∈ rankedCandidates dist row pool threshold maxc,
        c.1 < threshold ∧ ∃ o, (c.2, o) ∈ pool ∧ dist row o = c.1) ∧
    List.Pairwise distIdxLe (rankedCandidates dist row pool threshold maxc) := by
  refine ⟨rfl, ?_, rankedCandidates_forall dist row pool threshold maxc, ?_⟩
  · show ((rankedCandidates dist row pool threshold maxc).map Prod.snd).length ≤ maxc
    rw [List.length_map]
    exact List.length_take_le _ _
  · exact List.Pairwise.sublist (List.take_sublist _ _)
      (List.sorted_insertionSort distIdxLe _)

/-- Witness for C7 at a concrete input: two candidates below the
threshold, capped to one by `maxc = 1`. -/
theorem candidate_bound_and_order_witness :
    (0, 1) ∈ rankedCandidates sampleDist ⟨"a", "x", 1, 2⟩
        [(0, ⟨"a", "y", "/p.mp3"⟩), (1, ⟨"a", "x", "/q.mp3"⟩)] 3 1 ∧
    (0 < 3 ∧ ∃ o, ((1, o) ∈ [(0, (⟨"a", "y", "/p.mp3"⟩ : OtherRec)),
        (1, ⟨"a", "x", "/q.mp3"⟩)] ∧ sampleDist ⟨"a", "x", 1, 2⟩ o = 0)) :=
  ⟨by decide,
    (candidate_bound_and_order sampleDist ⟨"a", "x", 1, 2⟩
      [(0, ⟨"a", "y", "/p.mp3"⟩), (1, ⟨"a", "x", "/q.mp3"⟩)] 3 1).2.2.1
      (0, 1) (by decide)⟩

/-! ## Claim theorems: interactive disambiguation -/

theorem promptLoop_mem (valid : List String) :
    ∀ (responses rest : List String) (ans : String),
      promptLoop valid responses = some (ans, rest) → ans ∈ valid := by
  intro responses
  induction responses with
  | nil => intro rest ans h; cases h
  | cons a rs ih =>
    intro rest ans h
    rw [promptLoop] at h
    by_cases ha : a ∈ valid
    · rw [if_pos ha] at h
      obtain ⟨rfl, rfl⟩ := Prod.mk.injEq .. ▸ Option.some.inj h
      exact ha
    · rw [if_neg ha] at h
      exact ih rest ans h

theorem mem_validAnswers (n : Nat) (ans : String) :
    ans ∈ validAnswers n ↔ ans = "" ∨ ∃ i, i < n ∧ ans = decRepr i := by
  simp only [validAnswers, List.mem_cons, List.mem_map, List.mem_range]
  constructor
  · rintro (h | ⟨i, hi, rfl⟩)
    · exact Or.inl h
    · exact Or.inr ⟨i, hi, rfl⟩
  · rintro (h | ⟨i, hi, rfl⟩)
    · exact Or.inl h
    · exact Or.inr ⟨i, hi, rfl⟩

/-- C5: during disambiguation of a record with `close.length ≥ 1` proposed
candidates, only the empty string and the decimal strings of the indices
`0 .. close.length - 1` are ever accepted by the prompt loop; any other
response is skipped and the loop goes on with the remaining responses
(no failure outcome); an accepted empty response records no match, and an
accepted index response records exactly the candidate at that index. -/
theorem disambiguation_validation (other : List OtherRec) (t : TruthRec)
    (close : List Nat) (responses : List String) :
    (∀ ans rest, promptLoop (validAnswers close.length) responses = some (ans, rest) →
        ans = "" ∨ ∃ i, i < close.length ∧ ans = decRepr i) ∧
    (∀ ans rest, ans ∉ validAnswers close.length →
        promptLoop (validAnswers close.length) (ans :: rest) =
          promptLoop (validAnswers close.length) rest) ∧
    (∀ rest, promptLoop (validAnswers close.length) responses = some ("", rest) →
        resolveRecord other t close responses = some (none, rest)) ∧
    (∀ i rest, i < close.length →
        promptLoop (validAnswers close.length) responses = some (decRepr i, rest) →
        resolveRecord other t close responses =
          some (some ⟨t.libIdx, t.locIdx, (oget other (close.getD i 0)).path⟩, rest)) := by
  refine ⟨?_, ?_, ?_, ?_⟩
  · intro ans rest h
    exact (mem_validAnswers close.length ans).1 (promptLoop_mem _ responses rest ans h)
  · intro ans rest h
    rw [promptLoop, if_neg h]
  · intro rest h
    rw [resolveRecord, h]
    simp
  · intro i rest hi h
    rw [resolveRecord, h]
    simp [decRepr_ne_empty i, decParse_decRepr]

/-- Witness for C5 at a concrete input: with one candidate, the responses
`["7", "zz", "0"]` reject the two invalid answers and then select
candidate 0. -/
theorem disambiguation_validation_witness :
    resolveRecord [⟨"a", "b", "/p.mp3"⟩] ⟨"a", "b", 7, 8⟩ [0] ["7", "zz", "0"] =
      some (some ⟨7, 8, "/p.mp3"⟩, []) :=
  (disambiguation_validation [⟨"a", "b", "/p.mp3"⟩] ⟨"a", "b", 7, 8⟩ [0]
    ["7", "zz", "0"]).2.2.2 0 [] (by decide) (by decide)

/-! ## Claim theorems: run-level error handling -/

/-- C9, counterexample to the claim as stated: an input whose truth
residual is empty but whose completed run has non-empty output (the
exact-match rows), refuting "succeeds with empty output". -/
theorem empty_residual_counterexample :
    truthResidual [⟨"a", "t", 1, 2⟩] [⟨"a", "t", "/a.mp3"⟩] = [] ∧
    fix_with_clementine_db sampleDist [⟨"a", "t", 1, 2⟩] [⟨"a", "t", "/a.mp3"⟩]
        "y" [] 5 5 = .completed [⟨1, 2, "/a.mp3", "a.mp3", "/"⟩] ∧
    ([(⟨1, 2, "/a.mp3", "a.mp3", "/"⟩ : ResultRow)] : List ResultRow) ≠ [] := by
  decide

/-- C9, amended: with an empty truth residual the run never fails and never
prompts: an entirely empty truth collection exits early as nothing-to-do
with no output, and otherwise the fuzzy and interactive stages are skipped
and the output is exactly the finalised exact-match rows. -/
theorem empty_residual_skips_fuzzy (dist : TruthRec → OtherRec → Nat)
    (truth : List TruthRec) (other : List OtherRec) (responses : List String)
    (threshold maxc : Nat) (h : truthResidual truth other = []) :
    (truth = [] →
      fix_with_clementine_db dist truth other "y" responses threshold maxc =
        .nothingToDo) ∧
    (truth ≠ [] →
      fix_with_clementine_db dist truth other "y" responses threshold maxc =
        .completed ((pmRows truth other).map finalizeRow)) := by
  constructor
  · intro ht
    subst ht
    rw [fix_with_clementine_db]
    simp
  · intro ht
    have hs : sortedTruthResidual truth other = [] := by
      unfold sortedTruthResidual
      rw [h]
      rfl
    rw [fix_with_clementine_db]
    rw [if_neg (by simp [ht]), if_neg (by simp)]
    rw [if_pos (by simp [hs])]

/-- Witness for C9 (amended) at concrete inputs: the empty library exits
as nothing-to-do, and a fully matched library completes with exactly the
exact-match rows. -/
theorem empty_residual_skips_fuzzy_witness :
    fix_with_clementine_db sampleDist [] [] "y" [] 5 5 = .nothingToDo ∧
    fix_with_clementine_db sampleDist [⟨"a", "t", 1, 2⟩] [⟨"a", "t", "/a.mp3"⟩]
        "y" [] 5 5 =
      .completed ((pmRows [⟨"a", "t", 1, 2⟩] [⟨"a", "t", "/a.mp3"⟩]).map finalizeRow) :=
  ⟨(empty_residual_skips_fuzzy sampleDist [] [] [] 5 5 (by decide)).1 rfl,
    (empty_residual_skips_fuzzy sampleDist [⟨"a", "t", 1, 2⟩] [⟨"a", "t", "/a.mp3"⟩]
      [] 5 5 (by decide)).2 (by decide)⟩

/-! ## Claim theorems: reuse of an other record across truth records -/

/-- C4: the fuzzy stage never removes a confirmed other record from the
pool, so on this concrete input (two truth records, one near-miss other
record, operator answering index 0 both times) the exact stage matches
nothing and the completed run contains both confirmed rows, which carry
the two distinct truth library indices and share the other record's path. -/
theorem other_record_reused :
    matchedPairs [⟨"a", "x1", 1, 10⟩, ⟨"a", "x2", 2, 20⟩] [⟨"a", "x3", "/m/p.mp3"⟩]
        = [] ∧
    fix_with_clementine_db sampleDist [⟨"a", "x1", 1, 10⟩, ⟨"a", "x2", 2, 20⟩]
        [⟨"a", "x3", "/m/p.mp3"⟩] "y" ["0", "0"] 10 5 =
      .completed [⟨1, 10, "/m/p.mp3", "p.mp3", "/m"⟩, ⟨2, 20, "/m/p.mp3", "p.mp3", "/m"⟩] ∧
    (⟨1, 10, "/m/p.mp3", "p.mp3", "/m"⟩ : ResultRow).libIdx ≠
      (⟨2, 20, "/m/p.mp3", "p.mp3", "/m"⟩ : ResultRow).libIdx ∧
    (⟨1, 10, "/m/p.mp3", "p.mp3", "/m"⟩ : ResultRow).path =
      (⟨2, 20, "/m/p.mp3", "p.mp3", "/m"⟩ : ResultRow).path := by
  decide

/-! ## Claim theorems: `confirm_config` -/

/-- C10: `confirm_config` prompts (and can exit) exactly when the module
defines at least one eligible parameter — a member whose name does not
start with `__` and whose value's string form contains no `.`; with no
eligible parameter it returns silently without prompting, and with one it
exits with status 1 exactly when the answer differs from `"y"`. -/
theorem confirm_config_spec (members : List (String × String)) (answer : String) :
    (configParams members = [] ↔ ∀ p ∈ members, eligibleParam p = false) ∧
    (configParams members = [] →
        confirm_config members answer = (false, .proceed)) ∧
    (configParams members ≠ [] →
        (confirm_config members answer).1 = true ∧
        ((confirm_config members answer).2 = .exitCode 1 ↔ answer ≠ "y")) := by
  refine ⟨?_, ?_, ?_⟩
  · unfold configParams
    constructor
    · intro h p hp
      have hperm := List.perm_insertionSort memberLe (members.filter eligibleParam)
      rw [h] at hperm
      have hfil : members.filter eligibleParam = [] := hperm.symm.eq_nil
      by_contra hne
      have : p ∈ members.filter eligibleParam :=
        List.mem_filter.2 ⟨hp, by simp at hne ⊢; exact hne⟩
      rw [hfil] at this
      cases this
    · intro h
      have hfil : members.filter eligibleParam = [] :=
        List.filter_eq_nil_iff.2 (fun p hp => by rw [h p hp]; exact fun hc => by cases hc)
      rw [hfil]
      rfl
  · intro h
    rw [confirm_config, if_neg (by simp [h])]
  · intro h
    rw [confirm_config, if_pos h]
    refine ⟨rfl, ?_⟩
    by_cases ha : answer = "y"
    · simp [ha]
    · simp [ha]

/-- Witness for C10 at concrete inputs: a module whose only members are
dunder names and float-form values is not prompted; a module with one
eligible parameter and the answer `"n"` exits with status 1. -/
theorem confirm_config_spec_witness :
    confirm_config [("__doc__", "x"), ("THRESHOLD", "0.7")] "n" = (false, .proceed) ∧
    (confirm_config [("N_PROPOSAL", "5")] "n").1 = true ∧
    (confirm_config [("N_PROPOSAL", "5")] "n").2 = .exitCode 1 :=
  ⟨(confirm_config_spec [("__doc__", "x"), ("THRESHOLD", "0.7")] "n").2.1 (by decide),
    ((confirm_config_spec [("N_PROPOSAL", "5")] "n").2.2 (by decide)).1,
    ((confirm_config_spec [("N_PROPOSAL", "5")] "n").2.2 (by decide)).2.2 (by decide)⟩

/-! ## Helper lemmas for the merged output -/

theorem mem_closest_exists_pool (dist : TruthRec → OtherRec → Nat) (row : TruthRec)
    (pool : List (Nat × OtherRec)) (threshold maxc idx : Nat)
    (h : idx ∈ get_closest_matches_indices dist row pool threshold maxc) :
    ∃ o, (idx, o) ∈ pool := by
  rw [get_closest_matches_indices, List.mem_map] at h
  obtain ⟨c, hc, rfl⟩ := h
  obtain ⟨-, o, ho, -⟩ := rankedCandidates_forall dist row pool threshold maxc c hc
  exact ⟨o, ho⟩

theorem resolveRecord_cases (other : List OtherRec) (t : TruthRec) (close : List Nat)
    (responses : List String) (res : Option Row3) (rest : List String)
    (h : resolveRecord other t close responses = some (res, rest)) :
    res = none ∨ ∃ idx, idx ∈ close ∧
      res = some ⟨t.libIdx, t.locIdx, (oget other idx).path⟩ := by
  rw [resolveRecord] at h
  cases hp : promptLoop (validAnswers close.length) responses with
  | none => rw [hp] at h; cases h
  | some p =>
    obtain ⟨ans, rest2⟩ := p
    rw [hp] at h
    dsimp only at h
    by_cases he : ans = ""
    · subst he
      rw [if_pos rfl] at h
      obtain ⟨h1, -⟩ := Prod.mk.injEq .. ▸ Option.some.inj h
      exact Or.inl h1.symm
    · rw [if_neg he] at h
      obtain ⟨h1, -⟩ := Prod.mk.injEq .. ▸ Option.some.inj h
      have hv := (mem_validAnswers close.length ans).1
        (promptLoop_mem _ responses rest2 ans hp)
      rcases hv with rfl | ⟨i, hi, rfl⟩
      · exact absurd rfl he
      · refine Or.inr ⟨close.getD i 0, ?_, ?_⟩
        · rw [List.getD_eq_getElem close 0 hi]
          exact List.getElem_mem hi
        · rw [← h1, decParse_decRepr]

/-- Soundness of the close-match loop: every collected row carries the
library and location index of one visited entry and the path of one pool
record, and the sequence of collected library indices is a subsequence of
the visited entries' library indices (each entry yields at most one row,
in order). -/
theorem closeMatchLoop_sound (dist : TruthRec → OtherRec → Nat) (other : List OtherRec)
    (pool : List (Nat × OtherRec)) (threshold maxc : Nat) :
    ∀ (entries : List (Nat × TruthRec)) (responses : List String) (out : List Row3),
    closeMatchLoop dist other pool threshold maxc entries responses = some out →
    (∀ r ∈ out, (∃ e, e ∈ entries ∧ r.libIdx = e.2.libIdx ∧ r.locIdx = e.2.locIdx) ∧
        ∃ idx o, (idx, o) ∈ pool ∧ r.path = (oget other idx).path) ∧
    (out.map Row3.libIdx).Sublist (entries.map fun e => e.2.libIdx) := by
  intro entries
  induction entries with
  | nil =>
    intro responses out h
    obtain rfl : ([] : List Row3) = out := Option.some.inj h
    exact ⟨fun r hr => absurd hr (List.not_mem_nil r), List.nil_sublist _⟩
  | cons e rest ih =>
    intro responses out h
    rw [closeMatchLoop] at h
    by_cases hc : (get_closest_matches_indices dist e.2 pool threshold maxc).isEmpty
    · rw [if_pos hc] at h
      obtain ⟨hmem, hsub⟩ := ih responses out h
      exact ⟨fun r hr => ⟨(hmem r hr).1.elim fun e2 he2 =>
          ⟨e2, List.mem_cons_of_mem e he2.1, he2.2⟩, (hmem r hr).2⟩,
        hsub.cons _⟩
    · rw [if_neg hc] at h
      cases hr : resolveRecord other e.2
          (get_closest_matches_indices dist e.2 pool threshold maxc) responses with
      | none => rw [hr] at h; cases h
      | some p =>
        obtain ⟨res, rest2⟩ := p
        rw [hr] at h
        rcases resolveRecord_cases other e.2 _ responses res rest2 hr with
          rfl | ⟨idx, hidx, rfl⟩
        · obtain ⟨hmem, hsub⟩ := ih rest2 out h
          exact ⟨fun r hrr => ⟨(hmem r hrr).1.elim fun e2 he2 =>
              ⟨e2, List.mem_cons_of_mem e he2.1, he2.2⟩, (hmem r hrr).2⟩,
            hsub.cons _⟩
        · rw [Option.map_eq_some'] at h
          obtain ⟨out2, hout2, rfl⟩ := h
          obtain ⟨hmem, hsub⟩ := ih rest2 out2 hout2
          constructor
          · intro r hrr
            rcases List.mem_cons.1 hrr with rfl | hrr2
            · exact ⟨⟨e, List.mem_cons_self e rest, rfl, rfl⟩,
                idx, (mem_closest_exists_pool dist e.2 pool threshold maxc idx
                  hidx).elim fun o ho => ⟨o, ho, rfl⟩⟩
            · exact ⟨(hmem r hrr2).1.elim fun e2 he2 =>
                ⟨e2, List.mem_cons_of_mem e he2.1, he2.2⟩, (hmem r hrr2).2⟩
          · exact hsub.cons₂ _

/-- A completed run's rows are the finalised exact-match rows followed by
the (possibly absent) close-match rows. -/
theorem run_completed (dist : TruthRec → OtherRec → Nat) (truth : List TruthRec)
    (other : List OtherRec) (responses : List String) (threshold maxc : Nat)
    (rows : List ResultRow)
    (h : fix_with_clementine_db dist truth other "y" responses threshold maxc =
      .completed rows) :
    ∃ cm, rows = (pmRows truth other ++ cm).map finalizeRow ∧
      (cm = [] ∨ closeMatchLoop dist other (otherResidual truth other) threshold maxc
          (sortedTruthResidual truth other) responses = some cm) := by
  rw [fix_with_clementine_db] at h
  by_cases h1 : truth.isEmpty
  · rw [if_pos h1] at h; cases h
  · rw [if_neg h1, if_neg (by simp)] at h
    by_cases h2 : (sortedTruthResidual truth other).isEmpty
    · rw [if_pos h2] at h
      refine ⟨[], ?_, Or.inl rfl⟩
      rw [List.append_nil]
      exact (RunResult.completed.inj h).symm
    · rw [if_neg h2] at h
      cases hl : closeMatchLoop dist other (otherResidual truth other) threshold maxc
          (sortedTruthResidual truth other) responses with
      | none => rw [hl] at h; cases h
      | some cm =>
        rw [hl] at h
        exact ⟨cm, (RunResult.completed.inj h).symm, Or.inr rfl⟩

theorem pmRows_mem (truth : List TruthRec) (other : List OtherRec) (r : Row3)
    (h : r ∈ pmRows truth other) :
    ∃ i j, (i, j) ∈ matchedPairs truth other ∧
      r = ⟨(tget truth i).libIdx, (tget truth i).locIdx, (oget other j).path⟩ := by
  rw [pmRows, List.mem_map] at h
  obtain ⟨⟨i, j⟩, hp, rfl⟩ := h
  exact ⟨i, j, hp, rfl⟩

/-- Provenance of every row of a completed run: the presentation fields
are derived from the path by the path functions, the identifying keys are
those of a truth record, and the path is the path of an other record. -/
theorem completed_rows_provenance (dist : TruthRec → OtherRec → Nat)
    (truth : List TruthRec) (other : List OtherRec) (responses : List String)
    (threshold maxc : Nat) (rows : List ResultRow)
    (h : fix_with_clementine_db dist truth other "y" responses threshold maxc =
      .completed rows) :
    ∀ r ∈ rows,
      r.filename = pathName r.path ∧ r.directory = pathParent r.path ∧
      (∃ i, i < truth.length ∧ r.libIdx = (tget truth i).libIdx ∧
          r.locIdx = (tget truth i).locIdx) ∧
      ∃ j, j < other.length ∧ r.path = (oget other j).path := by
  obtain ⟨cm, rfl, hcm⟩ := run_completed dist truth other responses threshold maxc _ h
  intro r hr
  rw [List.mem_map] at hr
  obtain ⟨r3, hr3, rfl⟩ := hr
  refine ⟨rfl, rfl, ?_⟩
  rcases List.mem_append.1 hr3 with hpm | hcm2
  · obtain ⟨i, j, hij, rfl⟩ := pmRows_mem truth other r3 hpm
    obtain ⟨hi, hj, -⟩ := (mem_matchedPairs truth other i j).1 hij
    exact ⟨⟨i, hi, rfl, rfl⟩, j, hj, rfl⟩
  · rcases hcm with rfl | hloop
    · cases hcm2
    · obtain ⟨hmem, -⟩ := closeMatchLoop_sound dist other (otherResidual truth other)
        threshold maxc (sortedTruthResidual truth other) responses cm hloop
      obtain ⟨⟨e, he, hlib, hloc⟩, idx, o, hpool, hpath⟩ := hmem r3 hcm2
      have he2 : e ∈ truthResidual truth other :=
        (List.perm_insertionSort rowKeyLe _).mem_iff.1 he
      obtain ⟨hi, he3, -⟩ := (mem_truthResidual truth other e).1 he2
      obtain ⟨hj, -, -⟩ := (mem_otherResidual truth other (idx, o)).1 hpool
      exact ⟨⟨e.1, hi, by show r3.libIdx = _; rw [hlib, he3],
        by show r3.locIdx = _; rw [hloc, he3]⟩, idx, hj, hpath⟩

/-! ## Claim theorems: merged output fields -/

/-- C8: every row of the completed output carries the library and location
index of a truth record and the path of an other record, and its two
presentation fields are pure functions of that path: the filename is the
final path component and the directory is the parent-directory path. -/
theorem merge_row_fields (dist : TruthRec → OtherRec → Nat) (truth : List TruthRec)
    (other : List OtherRec) (responses : List String) (threshold maxc : Nat)
    (rows : List ResultRow)
    (h : fix_with_clementine_db dist truth other "y" responses threshold maxc =
      .completed rows) :
    ∀ r ∈ rows,
      r.filename = pathName r.path ∧ r.directory = pathParent r.path ∧
      (∃ i, i < truth.length ∧ r.libIdx = (tget truth i).libIdx ∧
          r.locIdx = (tget truth i).locIdx) ∧
      ∃ j, j < other.length ∧ r.path = (oget other j).path :=
  completed_rows_provenance dist truth other responses threshold maxc rows h

/-- Witness for C8 at the spec's concrete example: one exact pair, path
`/a.mp3`, filename `a.mp3`, directory `/`. -/
theorem merge_row_fields_witness :
    (⟨1, 2, "/a.mp3", "a.mp3", "/"⟩ : ResultRow).filename = pathName "/a.mp3" ∧
    (⟨1, 2, "/a.mp3", "a.mp3", "/"⟩ : ResultRow).directory = pathParent "/a.mp3" ∧
    (∃ i, i < ([⟨"Daft Punk", "One More Time", 1, 2⟩] : List TruthRec).length ∧
        (⟨1, 2, "/a.mp3", "a.mp3", "/"⟩ : ResultRow).libIdx =
          (tget [⟨"Daft Punk", "One More Time", 1, 2⟩] i).libIdx ∧
        (⟨1, 2, "/a.mp3", "a.mp3", "/"⟩ : ResultRow).locIdx =
          (tget [⟨"Daft Punk", "One More Time", 1, 2⟩] i).locIdx) ∧
    ∃ j, j < ([⟨"Daft Punk", "One More Time", "/a.mp3"⟩] : List OtherRec).length ∧
        (⟨1, 2, "/a.mp3", "a.mp3", "/"⟩ : ResultRow).path =
          (oget [⟨"Daft Punk", "One More Time", "/a.mp3"⟩] j).path :=
  merge_row_fields sampleDist [⟨"Daft Punk", "One More Time", 1, 2⟩]
    [⟨"Daft Punk", "One More Time", "/a.mp3"⟩] [] 5 5
    [⟨1, 2, "/a.mp3", "a.mp3", "/"⟩] (by decide)
    ⟨1, 2, "/a.mp3", "a.mp3", "/"⟩ (by decide)

theorem matchedPairs_inner_snd (truth : List TruthRec) (other : List OtherRec)
    (j : Nat) (x : Nat × Nat)
    (hx : x ∈ (List.range truth.length).filterMap fun i =>
      if truthKey (tget truth i) = otherKey (oget other j) then some (i, j) else none) :
    x.2 = j := by
  rw [List.mem_filterMap] at hx
  obtain ⟨a, -, ha⟩ := hx
  by_cases hc : truthKey (tget truth a) = otherKey (oget other j)
  · rw [if_pos hc] at ha
    rw [← Option.some.inj ha]
  · rw [if_neg hc] at ha
    cases ha

theorem matchedPairs_nodup (truth : List TruthRec) (other : List OtherRec) :
    (matchedPairs truth other).Nodup := by
  rw [matchedPairs, List.nodup_flatMap]
  constructor
  · intro j _
    refine List.Nodup.filterMap ?_ (List.nodup_range _)
    intro a a' b hb hb'
    rw [Option.mem_def] at hb hb'
    split at hb
    · split at hb'
      · have h1 := Option.some.inj hb
        have h2 := Option.some.inj hb'
        exact congrArg Prod.fst (h1.trans h2.symm)
      · cases hb'
    · cases hb
  · refine List.Pairwise.imp ?_ (List.nodup_range other.length)
    intro j j' hne x hx hx'
    exact hne ((matchedPairs_inner_snd truth other j x hx).symm.trans
      (matchedPairs_inner_snd truth other j' x hx'))

theorem truthResidual_nodup (truth : List TruthRec) (other : List OtherRec) :
    (truthResidual truth other).Nodup := by
  apply List.Nodup.filter
  apply List.Nodup.map ?_ (List.nodup_range _)
  intro a b hab
  exact congrArg Prod.fst hab

/-! ## Claim theorems: merge soundness -/

/-- C1, counterexample to the claim as stated: one truth record whose
merge key is shared by two other records; the inner join is a cross
product, so the completed output holds two rows carrying the same truth
record's library index — the truth record appears in two rows. -/
theorem merge_soundness_counterexample :
    fix_with_clementine_db sampleDist [⟨"a", "t", 1, 2⟩]
        [⟨"a", "t", "/p1.mp3"⟩, ⟨"a", "t", "/p2.mp3"⟩] "y" [] 5 5 =
      .completed [⟨1, 2, "/p1.mp3", "p1.mp3", "/"⟩, ⟨1, 2, "/p2.mp3", "p2.mp3", "/"⟩] ∧
    ¬ (([⟨1, 2, "/p1.mp3", "p1.mp3", "/"⟩, ⟨1, 2, "/p2.mp3", "p2.mp3", "/"⟩] :
        List ResultRow).map ResultRow.libIdx).Nodup := by
  refine ⟨by decide, ?_⟩
  intro h
  have := List.rel_of_pairwise_cons h (List.mem_singleton.2 rfl)
  exact this rfl

/-- C1, amended: when each truth record's merge key matches at most one
other record (no cross-product duplication) and the truth records carry
pairwise distinct library indices, every row of the completed output
carries the identifying keys of a truth record and no truth record appears
in two rows (the output's library indices are pairwise distinct). -/
theorem merge_soundness (dist : TruthRec → OtherRec → Nat) (truth : List TruthRec)
    (other : List OtherRec) (responses : List String) (threshold maxc : Nat)
    (rows : List ResultRow)
    (hone : ∀ i j1 j2, (i, j1) ∈ matchedPairs truth other →
        (i, j2) ∈ matchedPairs truth other → j1 = j2)
    (hlib : ∀ i1 i2, i1 < truth.length → i2 < truth.length →
        (tget truth i1).libIdx = (tget truth i2).libIdx → i1 = i2)
    (hrun : fix_with_clementine_db dist truth other "y" responses threshold maxc =
      .completed rows) :
    (∀ r ∈ rows, ∃ i, i < truth.length ∧ r.libIdx = (tget truth i).libIdx ∧
        r.locIdx = (tget truth i).locIdx) ∧
    (rows.map ResultRow.libIdx).Nodup := by
  have hprov := completed_rows_provenance dist truth other responses threshold maxc rows hrun
  refine ⟨fun r hr => (hprov r hr).2.2.1, ?_⟩
  obtain ⟨cm, rfl, hcm⟩ := run_completed dist truth other responses threshold maxc _ hrun
  have hmap : (((pmRows truth other ++ cm).map finalizeRow).map ResultRow.libIdx) =
      (pmRows truth other).map Row3.libIdx ++ cm.map Row3.libIdx := by
    rw [List.map_map, List.map_append]
    rfl
  rw [hmap, List.nodup_append]
  have hsortlibs : ((sortedTruthResidual truth other).map fun e => e.2.libIdx).Nodup := by
    have hperm : ((sortedTruthResidual truth other).map fun e => e.2.libIdx).Perm
        ((truthResidual truth other).map fun e => e.2.libIdx) :=
      (List.perm_insertionSort rowKeyLe _).map _
    rw [hperm.nodup_iff]
    apply List.Nodup.map_on ?_ (truthResidual_nodup truth other)
    intro e he e' he' heq
    obtain ⟨hi, he2, -⟩ := (mem_truthResidual truth other e).1 he
    obtain ⟨hi', he2', -⟩ := (mem_truthResidual truth other e').1 he'
    have h1 : e.1 = e'.1 := hlib e.1 e'.1 hi hi' (by rw [← he2, ← he2']; exact heq)
    obtain ⟨ea, eb⟩ := e
    obtain ⟨ea', eb'⟩ := e'
    simp only at h1 he2 he2'
    subst h1
    rw [Prod.mk.injEq]
    exact ⟨rfl, he2.trans he2'.symm⟩
  refine ⟨?_, ?_, ?_⟩
  · rw [pmRows, List.map_map]
    apply List.Nodup.map_on ?_ (matchedPairs_nodup truth other)
    intro p hp q hq heq
    simp only [Function.comp_def] at heq
    obtain ⟨pa, pb⟩ := p
    obtain ⟨qa, qb⟩ := q
    obtain ⟨hpa, -, -⟩ := (mem_matchedPairs truth other pa pb).1 hp
    obtain ⟨hqa, -, -⟩ := (mem_matchedPairs truth other qa qb).1 hq
    have h1 : pa = qa := hlib pa qa hpa hqa heq
    subst h1
    rw [Prod.mk.injEq]
    exact ⟨rfl, hone pa pb qb hp hq⟩
  · rcases hcm with rfl | hloop
    · exact List.nodup_nil
    · obtain ⟨-, hsub⟩ := closeMatchLoop_sound dist other (otherResidual truth other)
        threshold maxc (sortedTruthResidual truth other) responses cm hloop
      exact hsub.nodup hsortlibs
  · intro x hx hx'
    rw [pmRows, List.map_map, List.mem_map] at hx
    obtain ⟨p, hp, rfl⟩ := hx
    rcases hcm with rfl | hloop
    · cases hx'
    · obtain ⟨-, hsub⟩ := closeMatchLoop_sound dist other (otherResidual truth other)
        threshold maxc (sortedTruthResidual truth other) responses cm hloop
      have hx2 := hsub.mem hx'
      rw [List.mem_map] at hx2
      obtain ⟨e, he, heq⟩ := hx2
      have he2 : e ∈ truthResidual truth other :=
        (List.perm_insertionSort rowKeyLe _).mem_iff.1 he
      obtain ⟨hi, he3, hnot⟩ := (mem_truthResidual truth other e).1 he2
      obtain ⟨pa, pb⟩ := p
      obtain ⟨hpa, -, -⟩ := (mem_matchedPairs truth other pa pb).1 hp
      simp only [Function.comp_def] at heq
      have h1 : pa = e.1 := hlib pa e.1 hpa hi (by rw [he3] at heq; exact heq.symm)
      subst h1
      exact hnot pb hp

/-- Witness for C1 (amended) at a concrete input: one exact match and one
residual record with no candidate (threshold 0), giving a single-row
output with distinct library indices. -/
theorem merge_soundness_witness :
    (∀ r ∈ [(⟨1, 2, "/p.mp3", "p.mp3", "/"⟩ : ResultRow)],
      ∃ i, i < ([⟨"a", "t", 1, 2⟩, ⟨"b", "u", 3, 4⟩] : List TruthRec).length ∧
        r.libIdx = (tget [⟨"a", "t", 1, 2⟩, ⟨"b", "u", 3, 4⟩] i).libIdx ∧
        r.locIdx = (tget [⟨"a", "t", 1, 2⟩, ⟨"b", "u", 3, 4⟩] i).locIdx) ∧
    (([(⟨1, 2, "/p.mp3", "p.mp3", "/"⟩ : ResultRow)] :
        List ResultRow).map ResultRow.libIdx).Nodup :=
  merge_soundness sampleDist [⟨"a", "t", 1, 2⟩, ⟨"b", "u", 3, 4⟩]
    [⟨"a", "t", "/p.mp3"⟩] [] 0 5 [⟨1, 2, "/p.mp3", "p.mp3", "/"⟩]
    (by
      intro i j1 j2 h1 h2
      have hm : matchedPairs [⟨"a", "t", 1, 2⟩, ⟨"b", "u", 3, 4⟩]
          [⟨"a", "t", "/p.mp3"⟩] = [(0, 0)] := by decide
      rw [hm] at h1 h2
      rw [List.mem_singleton] at h1 h2
      obtain ⟨-, h1⟩ := Prod.mk.injEq .. ▸ h1
      obtain ⟨-, h2⟩ := Prod.mk.injEq .. ▸ h2
      omega)
    (by
      intro i1 i2 h1 h2 he
      have h1' : i1 < 2 := by simpa using h1
      have h2' : i2 < 2 := by simpa using h2
      interval_cases i1 <;> interval_cases i2 <;>
        first
          | rfl
          | exact absurd he (by decide))
    (by decide)
